import Mathlib

/-!
Verification of the logpilot-cli log ingestion pipeline: a shallow embedding of
the chunker (logpilot/chunker.py), the line parser (logpilot/log_parser.py),
the single-file branch of the source resolver (logpilot/input_manager.py), and
the response aggregator, together with proofs of the specified properties.
-/

/-- Model of a decoded Python/JSON value, as returned by json.loads.
JSON numbers are represented coarsely (an integer payload); no claim in this
development depends on numeric values. -/
inductive JsonVal where
  | null
  | bool (b : Bool)
  | num (n : Int)
  | str (s : String)
  | arr (elems : List JsonVal)
  | obj (fields : List (String × JsonVal))

/-- True exactly when the value is a Python string. -/
def JsonVal.isStr : JsonVal → Bool
  | JsonVal.str _ => true
  | _ => false

/-- LogEntry from logpilot/log_parser.py.  The structured fields hold whatever
Python value the parser assigned (None is JsonVal.null); raw is the original
line. -/
structure LogEntry where
  timestamp : JsonVal
  level : JsonVal
  source : JsonVal
  message : JsonVal
  raw : String

/-- estimate_tokens from logpilot/chunker.py: max(1, len(text) // 4). -/
def estimate_tokens (text : String) : Nat :=
  max 1 (text.length / 4)

/-- The loop of chunk_logs from logpilot/chunker.py, with the running chunk
and running token total as explicit state.  The Python loop flushes the
running chunk when adding the next entry would exceed max_tokens and the
running chunk is non-empty, then always appends the entry. -/
def chunkGo (max_tokens : Int) : List LogEntry → List LogEntry → Int → List (List LogEntry)
  | [], current, _tokens => if current.isEmpty = false then [current] else []
  | entry :: rest, current, tokens =>
    let entry_tokens : Int := (estimate_tokens entry.raw : Nat)
    if tokens + entry_tokens > max_tokens ∧ current.isEmpty = false then
      current :: chunkGo max_tokens rest [entry] entry_tokens
    else
      chunkGo max_tokens rest (current ++ [entry]) (tokens + entry_tokens)

/-- chunk_logs from logpilot/chunker.py (tqdm only decorates the iteration). -/
def chunk_logs (entries : List LogEntry) (max_tokens : Int) : List (List LogEntry) :=
  chunkGo max_tokens entries [] 0

/-- Total estimated token cost of a chunk: the sum of estimate_tokens over
the raw field of its entries. -/
def chunk_cost (c : List LogEntry) : Int :=
  (c.map (fun e => (estimate_tokens e.raw : Int))).sum

/-- The whitespace characters stripped by Python str.strip on ASCII input
(space, tab, newline, carriage return, vertical tab, form feed). -/
def isPySpace (c : Char) : Bool :=
  c == ' ' || c == '\t' || c == '\n' || c == '\r' || c == Char.ofNat 11 || c == Char.ofNat 12

/-- Model of Python str.strip: drop leading and trailing whitespace. -/
def pyStrip (l : List Char) : List Char :=
  ((l.dropWhile isPySpace).reverse.dropWhile isPySpace).reverse

/-- Number of comma characters in a line, as computed by str.count in the
text-format heuristic of parse_log_line. -/
def commaCount : List Char → Nat
  | [] => 0
  | c :: rest => (if c = ',' then 1 else 0) + commaCount rest

/-- The opening curly brace character. -/
def leftBrace : Char := Char.ofNat 123

/-- Model of stripped.startswith of the opening brace. -/
def startsWithBrace : List Char → Bool
  | [] => false
  | c :: _ => c == leftBrace

/-- Model of a Python dict lookup on the decoded JSON object (json.loads
never produces duplicate keys, so first match suffices). -/
def lookupKey (key : String) : List (String × JsonVal) → Option JsonVal
  | [] => none
  | (k, v) :: rest => if k = key then some v else lookupKey key rest

/-- parse_log_line from logpilot/log_parser.py.  The standard-library pieces
are parameters: jsonLoads models json.loads (none when it raises), and
pyStrFn models str() applied to the decoded object.  A decoded value that is
not an object makes data.get raise, which the bare except turns into None,
hence the catch-all match arm.  The text fallback requires at least two
commas in the stripped line. -/
def parse_log_line (jsonLoads : String → Option JsonVal) (pyStrFn : JsonVal → String)
    (line : String) (fmt : String) : Option LogEntry :=
  let stripped := pyStrip line.data
  if stripped.isEmpty then none
  else if fmt = "json" ∨ (fmt = "auto" ∧ startsWithBrace stripped = true) then
    match jsonLoads line with
    | some (JsonVal.obj fields) =>
      some { timestamp := (lookupKey "timestamp" fields).getD JsonVal.null,
             level := (lookupKey "level" fields).getD JsonVal.null,
             source := (lookupKey "source" fields).getD JsonVal.null,
             message := (lookupKey "message" fields).getD
               (JsonVal.str (pyStrFn (JsonVal.obj fields))),
             raw := line }
    | _ => none
  else if ',' ∈ stripped ∧ 2 ≤ commaCount stripped then
    some { timestamp := JsonVal.null, level := JsonVal.null, source := JsonVal.null,
           message := JsonVal.str line, raw := line }
  else none

/-- Model of os.path.basename for POSIX paths: the suffix after the last
slash. -/
def basename (path : String) : String :=
  ((path.data.reverse.takeWhile (fun c => c != '/')).reverse).asString

/-- The inner helper of iter_log_files in logpilot/input_manager.py: true
when some pattern matches the relative path or the plain name.  The glob
primitive fnmatch.fnmatch is a parameter fm (name first, pattern second). -/
def matchesPatterns (fm : String → String → Bool) (patterns : List String)
    (rel_path name : String) : Bool :=
  patterns.any (fun pattern => fm rel_path pattern || fm name pattern)

/-- Model of the Python idiom (value or default) on an optional list: None
and the empty list both fall back to the default. -/
def pyOrList (val : Option (List String)) (dflt : List String) : List String :=
  match val with
  | none => dflt
  | some [] => dflt
  | some (p :: ps) => p :: ps

/-- The single-file branch of iter_log_files from logpilot/input_manager.py:
when the root path is an existing file, the code sets rel_path to the
basename and yields the path exactly when the include patterns (defaulted to
a single star) match and the exclude patterns (defaulted to empty) do not. -/
def iter_log_files_single (fm : String → String → Bool) (path : String)
    (incOpt excOpt : Option (List String)) : List String :=
  let inc := pyOrList incOpt ["*"]
  let exc := pyOrList excOpt []
  let rel_path := basename path
  if matchesPatterns fm inc rel_path rel_path && !matchesPatterns fm exc rel_path rel_path
  then [path] else []

/-- Model of Python sep.join: the first element, then separator plus next
element folded in input order. -/
def pyJoin (sep : String) : List String → String
  | [] => ""
  | s :: rest => rest.foldl (fun acc r => acc ++ sep ++ r) s

/-- Modelled from the spec: the Response Aggregator (logpilot/postprocessor.py,
whose aggregate_responses is imported by the test suite) is not present in
the source tree.  Following the spec contract, it joins the responses in
order using the exact separator of newline, three dashes, newline. -/
def aggregate_responses (responses : List String) : String :=
  pyJoin "\n---\n" responses

/-- The join shape stated by the spec: empty input gives the empty string, a
single response is returned unchanged, and each further response is preceded
by one separator, so N responses carry N - 1 inserted separators. -/
def joinWithSep : List String → String
  | [] => ""
  | [s] => s
  | s :: rest => s ++ "\n---\n" ++ joinWithSep rest

/-- A jsonLoads oracle for lines on which json.loads raises. -/
def jlNone : String → Option JsonVal := fun _ => none

/-- A pyStrFn oracle used in concrete instances. -/
def psEmpty : JsonVal → String := fun _ => ""

/-- A jsonLoads oracle agreeing with json.loads on the one concrete line
whose message key is present and null. -/
def jlMsgNull : String → Option JsonVal := fun s =>
  if s = "\x7b\"message\": null\x7d" then some (JsonVal.obj [("message", JsonVal.null)])
  else none

/-- A concrete glob primitive for witnesses: a star pattern matches any
name, otherwise the pattern must equal the name. -/
def fmLit : String → String → Bool := fun name pat => pat == "*" || name == pat

/-- A concrete log entry used in witnesses. -/
def entryA : LogEntry :=
  { timestamp := JsonVal.null, level := JsonVal.null, source := JsonVal.null,
    message := JsonVal.str "abc", raw := "abc" }

/-- A second concrete log entry used in witnesses. -/
def entryB : LogEntry :=
  { timestamp := JsonVal.null, level := JsonVal.null, source := JsonVal.null,
    message := JsonVal.str "defg", raw := "defg" }

theorem estimate_tokens_pos (text : String) : 1 ≤ estimate_tokens text :=
  le_max_left 1 _

theorem isEmpty_false_ne_nil {α : Type} {l : List α} (h : l.isEmpty = false) : l ≠ [] := by
  cases l with
  | nil => simp [List.isEmpty] at h
  | cons a l => simp

theorem ne_nil_isEmpty_false {α : Type} {l : List α} (h : l ≠ []) : l.isEmpty = false := by
  cases l with
  | nil => exact absurd rfl h
  | cons a l => rfl

theorem chunkGo_flatten (max_tokens : Int) :
    ∀ (l cur : List LogEntry) (t : Int),
      (chunkGo max_tokens l cur t).flatten = cur ++ l := by
  intro l
  induction l with
  | nil =>
    intro cur t
    by_cases h : cur.isEmpty = false <;> simp [chunkGo, h]
    · have : cur = [] := by
        cases cur with
        | nil => rfl
        | cons a l => simp [List.isEmpty] at h
      simp [this]
  | cons e rest ih =>
    intro cur t
    simp only [chunkGo]
    by_cases h : (t + (estimate_tokens e.raw : Int) > max_tokens ∧ cur.isEmpty = false)
    · rw [if_pos h]; simp [ih]
    · rw [if_neg h]; simp [ih]

theorem chunkGo_ne_nil (max_tokens : Int) :
    ∀ (l cur : List LogEntry) (t : Int) (c : List LogEntry),
      c ∈ chunkGo max_tokens l cur t → c ≠ [] := by
  intro l
  induction l with
  | nil =>
    intro cur t c hc
    by_cases h : cur.isEmpty = false
    · simp only [chunkGo, h, if_pos] at hc
      rw [List.mem_singleton] at hc
      exact hc ▸ isEmpty_false_ne_nil h
    · simp [chunkGo, h] at hc
  | cons e rest ih =>
    intro cur t c hc
    simp only [chunkGo] at hc
    by_cases h : (t + (estimate_tokens e.raw : Int) > max_tokens ∧ cur.isEmpty = false)
    · rw [if_pos h] at hc
      rcases List.mem_cons.mp hc with h1 | h2
      · exact h1 ▸ isEmpty_false_ne_nil h.2
      · exact ih _ _ _ h2
    · rw [if_neg h] at hc
      exact ih _ _ _ hc

theorem chunkGo_singletons (max_tokens : Int) :
    ∀ (l cur : List LogEntry) (t : Int),
      (∀ e ∈ l, max_tokens < (estimate_tokens e.raw : Int)) →
      cur ≠ [] → 0 ≤ t →
      chunkGo max_tokens l cur t = cur :: l.map (fun e => [e]) := by
  intro l
  induction l with
  | nil =>
    intro cur t _ hcur _
    cases cur with
    | nil => exact absurd rfl hcur
    | cons a l => simp [chunkGo, List.isEmpty]
  | cons e rest ih =>
    intro cur t hlt hcur ht
    have hone : max_tokens < (estimate_tokens e.raw : Int) := hlt e (List.mem_cons_self e rest)
    have hcond : t + (estimate_tokens e.raw : Int) > max_tokens ∧ cur.isEmpty = false :=
      ⟨by omega, ne_nil_isEmpty_false hcur⟩
    simp only [chunkGo]
    rw [if_pos hcond]
    rw [ih [e] _ (fun x hx => hlt x (List.mem_cons_of_mem e hx)) (by simp)
      (by exact_mod_cast Nat.zero_le _)]
    simp

theorem chunk_cost_append (c : List LogEntry) (e : LogEntry) :
    chunk_cost (c ++ [e]) = chunk_cost c + (estimate_tokens e.raw : Int) := by
  simp [chunk_cost]

theorem chunkGo_cost_le (max_tokens : Int) :
    ∀ (l cur : List LogEntry) (t : Int),
      t = chunk_cost cur →
      (2 ≤ cur.length → t ≤ max_tokens) →
      ∀ c ∈ chunkGo max_tokens l cur t, 2 ≤ c.length → chunk_cost c ≤ max_tokens := by
  intro l
  induction l with
  | nil =>
    intro cur t hct hinv c hc hlen
    by_cases h : cur.isEmpty = false
    · simp only [chunkGo, h, if_pos] at hc
      rw [List.mem_singleton] at hc
      subst hc
      exact hct ▸ hinv hlen
    · simp [chunkGo, h] at hc
  | cons e rest ih =>
    intro cur t hct hinv c hc hlen
    simp only [chunkGo] at hc
    by_cases h : (t + (estimate_tokens e.raw : Int) > max_tokens ∧ cur.isEmpty = false)
    · rw [if_pos h] at hc
      rcases List.mem_cons.mp hc with h1 | h2
      · subst h1
        exact hct ▸ hinv hlen
      · refine ih [e] _ (by simp [chunk_cost]) (by intro habs; simp at habs) c h2 hlen
    · rw [if_neg h] at hc
      refine ih (cur ++ [e]) _ (by rw [chunk_cost_append, hct]) ?_ c hc hlen
      intro hlen2
      rcases not_and_or.mp h with h1 | h2
      · omega
      · cases cur with
        | nil => simp at hlen2
        | cons a l => exact absurd rfl h2

/-- Claim C1: for every finite entry sequence and every integer max_tokens,
concatenating the chunks of chunk_logs in output order yields exactly the
input sequence, so no entry is lost, none is duplicated, and relative order
is preserved. -/
theorem chunk_logs_concat_eq_input (entries : List LogEntry) (max_tokens : Int) :
    (chunk_logs entries max_tokens).flatten = entries := by
  simp [chunk_logs, chunkGo_flatten]

/-- Claim C3: every chunk produced by chunk_logs is non-empty. -/
theorem chunk_logs_no_empty_chunk (entries : List LogEntry) (max_tokens : Int)
    (c : List LogEntry) (hc : c ∈ chunk_logs entries max_tokens) : c ≠ [] :=
  chunkGo_ne_nil max_tokens entries [] 0 c hc

theorem chunk_logs_no_empty_chunk_witness :
    [entryA] ≠ ([] : List LogEntry) :=
  chunk_logs_no_empty_chunk [entryA] 0 [entryA]
    (by rw [show chunk_logs [entryA] 0 = [[entryA]] from rfl]; exact List.mem_singleton_self _)

/-- Claim C4: if every entry's estimated cost strictly exceeds max_tokens
(in particular whenever max_tokens is at most zero, since every cost is at
least one), chunk_logs returns one singleton chunk per input entry, so the
number of chunks equals the number of entries. -/
theorem chunk_logs_all_over_budget_singletons (entries : List LogEntry) (max_tokens : Int)
    (h : ∀ e ∈ entries, max_tokens < (estimate_tokens e.raw : Int)) :
    chunk_logs entries max_tokens = entries.map (fun e => [e]) ∧
    (chunk_logs entries max_tokens).length = entries.length := by
  have hmain : chunk_logs entries max_tokens = entries.map (fun e => [e]) := by
    cases entries with
    | nil => rfl
    | cons e rest =>
      have hone : max_tokens < (estimate_tokens e.raw : Int) := h e (List.mem_cons_self e rest)
      show chunkGo max_tokens (e :: rest) [] 0 = _
      simp only [chunkGo]
      rw [if_neg (by simp [List.isEmpty])]
      rw [show (([] : List LogEntry) ++ [e]) = [e] from rfl]
      rw [chunkGo_singletons max_tokens rest [e] _
        (fun x hx => h x (List.mem_cons_of_mem e hx)) (by simp)
        (by exact_mod_cast Nat.zero_le _)]
      simp
  exact ⟨hmain, by rw [hmain, List.length_map]⟩

theorem chunk_logs_all_over_budget_singletons_witness :
    chunk_logs [entryA, entryB] 0 = [[entryA], [entryB]] ∧
    (chunk_logs [entryA, entryB] 0).length = 2 :=
  chunk_logs_all_over_budget_singletons [entryA, entryB] 0
    (by intro e he; simp only [List.mem_cons, List.mem_singleton, List.not_mem_nil,
          or_false] at he; rcases he with h | h <;> subst h <;> decide)

/-- Claim C9: every chunk produced by chunk_logs that holds two or more
entries has total estimated cost at most max_tokens; equivalently any chunk
whose cost exceeds max_tokens is a singleton. -/
theorem chunk_logs_multi_chunk_within_budget (entries : List LogEntry) (max_tokens : Int)
    (c : List LogEntry) (hc : c ∈ chunk_logs entries max_tokens)
    (hlen : 2 ≤ c.length) : chunk_cost c ≤ max_tokens :=
  chunkGo_cost_le max_tokens entries [] 0 rfl (by intro habs; simp at habs) c hc hlen

theorem chunk_logs_multi_chunk_within_budget_witness :
    [entryA, entryB] ∈ chunk_logs [entryA, entryB] 2 ∧ chunk_cost [entryA, entryB] ≤ 2 := by
  have hmem : [entryA, entryB] ∈ chunk_logs [entryA, entryB] 2 := by
    rw [show chunk_logs [entryA, entryB] 2 = [[entryA, entryB]] from rfl]
    exact List.mem_singleton_self _
  exact ⟨hmem, chunk_logs_multi_chunk_within_budget [entryA, entryB] 2 [entryA, entryB] hmem
    (by decide)⟩

theorem commaCount_append (l1 l2 : List Char) :
    commaCount (l1 ++ l2) = commaCount l1 + commaCount l2 := by
  induction l1 with
  | nil => simp [commaCount]
  | cons c rest ih => simp [commaCount, ih]; omega

theorem commaCount_reverse (l : List Char) : commaCount l.reverse = commaCount l := by
  induction l with
  | nil => rfl
  | cons c rest ih => simp [commaCount, List.reverse_cons, commaCount_append, ih]; omega

theorem isPySpace_comma_false : isPySpace ',' = false := rfl

theorem commaCount_dropWhile (l : List Char) :
    commaCount (l.dropWhile isPySpace) = commaCount l := by
  induction l with
  | nil => rfl
  | cons c rest ih =>
    by_cases h : isPySpace c
    · have hc : ¬ c = ',' := by
        intro habs
        rw [habs] at h
        exact absurd h (by rw [isPySpace_comma_false]; simp)
      rw [List.dropWhile_cons_of_pos h]
      simp [commaCount, hc, ih]
    · rw [List.dropWhile_cons_of_neg h]

theorem commaCount_pyStrip (l : List Char) : commaCount (pyStrip l) = commaCount l := by
  unfold pyStrip
  rw [commaCount_reverse, commaCount_dropWhile, commaCount_reverse, commaCount_dropWhile]

theorem comma_mem_of_count_pos (l : List Char) (h : 1 ≤ commaCount l) : ',' ∈ l := by
  induction l with
  | nil => simp [commaCount] at h
  | cons c rest ih =>
    by_cases hc : c = ','
    · rw [hc]; exact List.mem_cons_self _ _
    · simp only [commaCount, hc, if_false] at h
      exact List.mem_cons_of_mem _ (ih (by omega))

/-- Claim C5: when the format is json, or the format is auto and the
stripped line starts with an opening brace, a line on which json.loads
raises makes parse_log_line return none; it never falls through to the
comma heuristic. -/
theorem parse_json_failure_none (jsonLoads : String → Option JsonVal)
    (pyStrFn : JsonVal → String) (line fmt : String)
    (hfmt : fmt = "json" ∨ (fmt = "auto" ∧ startsWithBrace (pyStrip line.data) = true))
    (hfail : jsonLoads line = none) :
    parse_log_line jsonLoads pyStrFn line fmt = none := by
  simp only [parse_log_line]
  by_cases hemp : (pyStrip line.data).isEmpty
  · rw [if_pos hemp]
  · rw [if_neg hemp, if_pos hfmt, hfail]

theorem parse_json_failure_none_witness :
    ("json" = "json" ∨ ("json" = "auto" ∧ startsWithBrace (pyStrip ("\x7b\"level\":").data) = true)) ∧
    jlNone "\x7b\"level\":" = none ∧
    parse_log_line jlNone psEmpty "\x7b\"level\":" "json" = none :=
  ⟨Or.inl rfl, rfl,
    parse_json_failure_none jlNone psEmpty "\x7b\"level\":" "json" (Or.inl rfl) rfl⟩

/-- Claim C6: under format text, or auto with a stripped line not starting
with an opening brace, parse_log_line yields an entry exactly when the line
holds at least two commas, and that entry has timestamp, level and source
null, with both message and raw equal to the full raw line. -/
theorem parse_text_comma_heuristic (jsonLoads : String → Option JsonVal)
    (pyStrFn : JsonVal → String) (line fmt : String)
    (hfmt : fmt = "text" ∨ (fmt = "auto" ∧ startsWithBrace (pyStrip line.data) = false)) :
    parse_log_line jsonLoads pyStrFn line fmt =
      if 2 ≤ commaCount line.data then
        some { timestamp := JsonVal.null, level := JsonVal.null, source := JsonVal.null,
               message := JsonVal.str line, raw := line }
      else none := by
  have hnotjson :
      ¬ (fmt = "json" ∨ (fmt = "auto" ∧ startsWithBrace (pyStrip line.data) = true)) := by
    rcases hfmt with h | ⟨h1, h2⟩
    · subst h
      rintro (habs | ⟨habs, _⟩) <;> simp at habs
    · subst h1
      rintro (habs | ⟨_, habs⟩)
      · simp at habs
      · rw [h2] at habs
        exact Bool.noConfusion habs
  simp only [parse_log_line]
  by_cases hemp : (pyStrip line.data).isEmpty
  · rw [if_pos hemp]
    have hnil : pyStrip line.data = [] := by
      cases hp : pyStrip line.data with
      | nil => rfl
      | cons a l => rw [hp] at hemp; exact absurd hemp (by simp [List.isEmpty])
    have h0 : commaCount line.data = 0 := by
      rw [← commaCount_pyStrip line.data, hnil]
      rfl
    rw [if_neg (by omega)]
  · rw [if_neg hemp, if_neg hnotjson]
    by_cases hcc : 2 ≤ commaCount line.data
    · rw [if_pos ⟨comma_mem_of_count_pos _ (by rw [commaCount_pyStrip]; omega),
        by rw [commaCount_pyStrip]; exact hcc⟩, if_pos hcc]
    · rw [if_neg (by rw [commaCount_pyStrip]; intro ⟨_, habs⟩; exact hcc habs),
        if_neg hcc]

theorem parse_text_comma_heuristic_witness :
    parse_log_line jlNone psEmpty "2024-01-01,INFO,app,started" "text" =
      some { timestamp := JsonVal.null, level := JsonVal.null, source := JsonVal.null,
             message := JsonVal.str "2024-01-01,INFO,app,started",
             raw := "2024-01-01,INFO,app,started" } := by
  rw [parse_text_comma_heuristic jlNone psEmpty "2024-01-01,INFO,app,started" "text"
    (Or.inl rfl)]
  rw [if_pos (by decide)]

/-- Claim C10: any format string other than json and auto is handled exactly
like text: the JSON branch is never entered and the comma heuristic decides
the outcome. -/
theorem parse_unknown_format_as_text (jsonLoads : String → Option JsonVal)
    (pyStrFn : JsonVal → String) (line fmt : String)
    (hj : fmt ≠ "json") (ha : fmt ≠ "auto") :
    parse_log_line jsonLoads pyStrFn line fmt =
      parse_log_line jsonLoads pyStrFn line "text" := by
  have h1 : ¬ (fmt = "json" ∨ (fmt = "auto" ∧ startsWithBrace (pyStrip line.data) = true)) := by
    rintro (h | ⟨h, _⟩)
    · exact hj h
    · exact ha h
  have h2 :
      ¬ ("text" = "json" ∨ ("text" = "auto" ∧ startsWithBrace (pyStrip line.data) = true)) := by
    rintro (h | ⟨h, _⟩) <;> simp at h
  simp only [parse_log_line, if_neg h1, if_neg h2]

theorem parse_unknown_format_as_text_witness :
    parse_log_line jlNone psEmpty "\x7b1,2,3\x7d" "csv" =
      parse_log_line jlNone psEmpty "\x7b1,2,3\x7d" "text" :=
  parse_unknown_format_as_text jlNone psEmpty "\x7b1,2,3\x7d" "csv" (by decide) (by decide)

/-- Claim C2 (amended): the message of any entry produced by parse_log_line
is a string, except when the JSON branch decoded an object whose message key
is present with a non-string value (in particular null); in that case the
message is that value verbatim. -/
theorem parse_message_string_or_verbatim (jsonLoads : String → Option JsonVal)
    (pyStrFn : JsonVal → String) (line fmt : String) (e : LogEntry)
    (h : parse_log_line jsonLoads pyStrFn line fmt = some e) :
    e.message.isStr = true ∨
      ∃ fields v, jsonLoads line = some (JsonVal.obj fields) ∧
        lookupKey "message" fields = some v ∧ e.message = v ∧ v.isStr = false := by
  simp only [parse_log_line] at h
  by_cases hemp : (pyStrip line.data).isEmpty
  · rw [if_pos hemp] at h
    exact Option.noConfusion h
  · rw [if_neg hemp] at h
    by_cases hjson : (fmt = "json" ∨ (fmt = "auto" ∧ startsWithBrace (pyStrip line.data) = true))
    · rw [if_pos hjson] at h
      cases hjl : jsonLoads line with
      | none => rw [hjl] at h; exact Option.noConfusion h
      | some v =>
        rw [hjl] at h
        cases v with
        | obj fields =>
          rw [Option.some_inj] at h
          subst h
          cases hlk : lookupKey "message" fields with
          | none => left; simp [hlk, JsonVal.isStr]
          | some v =>
            cases hv : v.isStr with
            | true => left; simp [hlk, hv]
            | false => right; exact ⟨fields, v, rfl, hlk, by simp [hlk], hv⟩
        | null => exact Option.noConfusion h
        | bool b => exact Option.noConfusion h
        | num n => exact Option.noConfusion h
        | str s => exact Option.noConfusion h
        | arr elems => exact Option.noConfusion h
    · rw [if_neg hjson] at h
      by_cases hcc : (',' ∈ pyStrip line.data ∧ 2 ≤ commaCount (pyStrip line.data))
      · rw [if_pos hcc, Option.some_inj] at h
        subst h
        left
        rfl
      · rw [if_neg hcc] at h
        exact Option.noConfusion h

theorem parse_message_string_or_verbatim_witness :
    JsonVal.isStr (JsonVal.str "a,b,c") = true ∨
      ∃ fields v, jlNone "a,b,c" = some (JsonVal.obj fields) ∧
        lookupKey "message" fields = some v ∧
        JsonVal.str "a,b,c" = v ∧ v.isStr = false :=
  parse_message_string_or_verbatim jlNone psEmpty "a,b,c" "text"
    { timestamp := JsonVal.null, level := JsonVal.null, source := JsonVal.null,
      message := JsonVal.str "a,b,c", raw := "a,b,c" } rfl

/-- Claim C2 counterexample: json.loads maps the concrete line holding a
null message key to an object whose message entry is null, and
parse_log_line then yields an entry whose message is null rather than a
string. -/
theorem parse_message_null_counterexample :
    jlMsgNull "\x7b\"message\": null\x7d" =
      some (JsonVal.obj [("message", JsonVal.null)]) ∧
    (parse_log_line jlMsgNull psEmpty "\x7b\"message\": null\x7d" "json").map
      (fun e => JsonVal.isStr e.message) = some false :=
  ⟨rfl, rfl⟩

theorem matchesPatterns_self_eq (fm : String → String → Bool) (pats : List String) (b : String) :
    matchesPatterns fm pats b b = pats.any (fun pat => fm b pat) := by
  simp [matchesPatterns]

/-- Claim C7: for a root path that is a single file, the resolver yields the
path exactly when some include pattern (the list defaulting to a single star
when absent or empty) matches the filename under the glob primitive and no
exclude pattern does, the code testing the basename in both the name and the
relative-path slot; and whenever an include and an exclude pattern both
match, the file is excluded. -/
theorem iter_single_file_filter (fm : String → String → Bool) (path : String)
    (incOpt excOpt : Option (List String)) :
    (iter_log_files_single fm path incOpt excOpt = [path] ↔
      (∃ pat ∈ pyOrList incOpt ["*"], fm (basename path) pat = true) ∧
        ∀ pat ∈ pyOrList excOpt [], fm (basename path) pat = false) ∧
    (∀ pat1 ∈ pyOrList incOpt ["*"], ∀ pat2 ∈ pyOrList excOpt [],
      fm (basename path) pat1 = true → fm (basename path) pat2 = true →
      iter_log_files_single fm path incOpt excOpt = []) := by
  constructor
  · simp only [iter_log_files_single, matchesPatterns_self_eq]
    by_cases hc : ((pyOrList incOpt ["*"]).any (fun pat => fm (basename path) pat) &&
        !(pyOrList excOpt []).any (fun pat => fm (basename path) pat)) = true
    · rw [if_pos hc]
      rw [Bool.and_eq_true] at hc
      rcases hc with ⟨hA, hnB⟩
      have hB : (pyOrList excOpt []).any (fun pat => fm (basename path) pat) = false := by
        cases hx : (pyOrList excOpt []).any (fun pat => fm (basename path) pat) with
        | false => rfl
        | true => rw [hx] at hnB; simp at hnB
      constructor
      · intro _
        refine ⟨List.any_eq_true.mp hA, ?_⟩
        intro pat hpat
        cases hfm : fm (basename path) pat with
        | false => rfl
        | true =>
          have : (pyOrList excOpt []).any (fun pat => fm (basename path) pat) = true :=
            List.any_eq_true.mpr ⟨pat, hpat, hfm⟩
          rw [this] at hB
          exact Bool.noConfusion hB
      · intro _
        rfl
    · rw [if_neg hc]
      constructor
      · intro habs
        exact absurd habs (by simp)
      · rintro ⟨⟨pat, hpat, hfm⟩, hexc⟩
        exfalso
        apply hc
        rw [Bool.and_eq_true]
        refine ⟨List.any_eq_true.mpr ⟨pat, hpat, hfm⟩, ?_⟩
        rw [Bool.not_eq_true']
        cases hB : (pyOrList excOpt []).any (fun pat => fm (basename path) pat) with
        | false => rfl
        | true =>
          rcases List.any_eq_true.mp hB with ⟨x, hx, hfmx⟩
          rw [hexc x hx] at hfmx
          exact Bool.noConfusion hfmx
  · intro pat1 h1 pat2 h2 hf1 hf2
    simp only [iter_log_files_single, matchesPatterns_self_eq]
    rw [if_neg]
    intro habs
    rw [Bool.and_eq_true] at habs
    rcases habs with ⟨-, hnB⟩
    have hB : (pyOrList excOpt []).any (fun pat => fm (basename path) pat) = true :=
      List.any_eq_true.mpr ⟨pat2, h2, hf2⟩
    rw [hB] at hnB
    exact Bool.noConfusion hnB

theorem iter_single_file_filter_witness :
    iter_log_files_single fmLit "logs/app.log" none (some ["app.log"]) = [] :=
  (iter_single_file_filter fmLit "logs/app.log" none (some ["app.log"])).2
    "*" (List.mem_singleton_self _) "app.log" (List.mem_singleton_self _) rfl (by decide)

theorem str_append_assoc (a b c : String) : a ++ b ++ c = a ++ (b ++ c) := by
  apply String.ext
  simp only [String.data_append, List.append_assoc]

theorem foldl_sep_shift :
    ∀ (l : List String) (a b : String),
      List.foldl (fun acc x => acc ++ "\n---\n" ++ x) (a ++ b) l =
        a ++ List.foldl (fun acc x => acc ++ "\n---\n" ++ x) b l := by
  intro l
  induction l with
  | nil => intro a b; rfl
  | cons x xs ih =>
    intro a b
    rw [List.foldl_cons, List.foldl_cons]
    rw [show a ++ b ++ "\n---\n" ++ x = a ++ (b ++ "\n---\n" ++ x) by
      simp only [str_append_assoc]]
    exact ih a (b ++ "\n---\n" ++ x)

theorem pyJoin_eq_joinWithSep :
    ∀ (rest : List String) (s : String),
      pyJoin "\n---\n" (s :: rest) = joinWithSep (s :: rest) := by
  intro rest
  induction rest with
  | nil => intro s; rfl
  | cons r rs ih =>
    intro s
    show List.foldl (fun acc x => acc ++ "\n---\n" ++ x) s (r :: rs) = _
    rw [List.foldl_cons]
    rw [show s ++ "\n---\n" ++ r = (s ++ "\n---\n") ++ r from rfl]
    rw [foldl_sep_shift rs (s ++ "\n---\n") r]
    rw [show List.foldl (fun acc x => acc ++ "\n---\n" ++ x) r rs =
      pyJoin "\n---\n" (r :: rs) from rfl]
    rw [ih r]
    rfl

theorem aggregate_eq_joinWithSep (responses : List String) :
    aggregate_responses responses = joinWithSep responses := by
  cases responses with
  | nil => rfl
  | cons s rest => exact pyJoin_eq_joinWithSep rest s

/-- Claim C8: aggregate_responses joins the responses in input order with
the exact separator of newline, three dashes, newline: the empty sequence
yields the empty string, a single response is returned unchanged, and each
further response contributes exactly one more separator, so N responses
carry N minus one inserted separators, with no deduplication, trimming or
reordering. -/
theorem aggregate_responses_spec_shape :
    aggregate_responses [] = "" ∧
    (∀ s, aggregate_responses [s] = s) ∧
    (∀ s r rest, aggregate_responses (s :: r :: rest) =
      s ++ "\n---\n" ++ aggregate_responses (r :: rest)) ∧
    aggregate_responses ["A", "B", "C"] = "A\n---\nB\n---\nC" := by
  refine ⟨rfl, fun s => rfl, ?_, rfl⟩
  intro s r rest
  rw [aggregate_eq_joinWithSep, aggregate_eq_joinWithSep]
  rfl
